import Mathlib

/-!
Verification of the GF(2^8) field arithmetic (`ff.py`) and the generic
polynomial ring (`polynomial.py`) of the reed-solomon repository.

Field element values are modelled as `Nat` in the range `[0, 255]`;
polynomials are modelled as coefficient lists (highest power first),
mirroring `Polynomial.coefficients`.  Fallible operations (those that can
raise in Python) return `Option`/`Except` or a dedicated outcome type.
-/

namespace RS

/-- Exponent table for generator 3 over GF(2^8), from `GF256int.exptable`. -/
def exptable : List Nat :=
  [1, 3, 5, 15, 17, 51, 85, 255, 26, 46, 114, 150, 161, 248, 19,
   53, 95, 225, 56, 72, 216, 115, 149, 164, 247, 2, 6, 10, 30, 34,
   102, 170, 229, 52, 92, 228, 55, 89, 235, 38, 106, 190, 217, 112,
   144, 171, 230, 49, 83, 245, 4, 12, 20, 60, 68, 204, 79, 209, 104,
   184, 211, 110, 178, 205, 76, 212, 103, 169, 224, 59, 77, 215, 98,
   166, 241, 8, 24, 40, 120, 136, 131, 158, 185, 208, 107, 189, 220,
   127, 129, 152, 179, 206, 73, 219, 118, 154, 181, 196, 87, 249, 16,
   48, 80, 240, 11, 29, 39, 105, 187, 214, 97, 163, 254, 25, 43, 125,
   135, 146, 173, 236, 47, 113, 147, 174, 233, 32, 96, 160, 251, 22,
   58, 78, 210, 109, 183, 194, 93, 231, 50, 86, 250, 21, 63, 65, 195,
   94, 226, 61, 71, 201, 64, 192, 91, 237, 44, 116, 156, 191, 218,
   117, 159, 186, 213, 100, 172, 239, 42, 126, 130, 157, 188, 223,
   122, 142, 137, 128, 155, 182, 193, 88, 232, 35, 101, 175, 234, 37,
   111, 177, 200, 67, 197, 84, 252, 31, 33, 99, 165, 244, 7, 9, 27,
   45, 119, 153, 176, 203, 70, 202, 69, 207, 74, 222, 121, 139, 134,
   145, 168, 227, 62, 66, 198, 81, 243, 14, 18, 54, 90, 238, 41, 123,
   141, 140, 143, 138, 133, 148, 167, 242, 13, 23, 57, 75, 221, 124,
   132, 151, 162, 253, 28, 36, 108, 180, 199, 82, 246, 1]

/-- Logarithm table base 3, from `GF256int.logtable`; entry 0 is `None`
in the source, modelled as `none`. -/
def logtable : List (Option Nat) :=
  [none, some 0, some 25, some 1, some 50, some 2, some 26, some 198,
   some 75, some 199, some 27, some 104, some 51, some 238, some 223,
   some 3, some 100, some 4, some 224, some 14, some 52, some 141,
   some 129, some 239, some 76, some 113, some 8, some 200, some 248,
   some 105, some 28, some 193, some 125, some 194, some 29, some 181,
   some 249, some 185, some 39, some 106, some 77, some 228, some 166,
   some 114, some 154, some 201, some 9, some 120, some 101, some 47,
   some 138, some 5, some 33, some 15, some 225, some 36, some 18,
   some 240, some 130, some 69, some 53, some 147, some 218, some 142,
   some 150, some 143, some 219, some 189, some 54, some 208, some 206,
   some 148, some 19, some 92, some 210, some 241, some 64, some 70,
   some 131, some 56, some 102, some 221, some 253, some 48, some 191,
   some 6, some 139, some 98, some 179, some 37, some 226, some 152,
   some 34, some 136, some 145, some 16, some 126, some 110, some 72,
   some 195, some 163, some 182, some 30, some 66, some 58, some 107,
   some 40, some 84, some 250, some 133, some 61, some 186, some 43,
   some 121, some 10, some 21, some 155, some 159, some 94, some 202,
   some 78, some 212, some 172, some 229, some 243, some 115, some 167,
   some 87, some 175, some 88, some 168, some 80, some 244, some 234,
   some 214, some 116, some 79, some 174, some 233, some 213, some 231,
   some 230, some 173, some 232, some 44, some 215, some 117, some 122,
   some 235, some 22, some 11, some 245, some 89, some 203, some 95,
   some 176, some 156, some 169, some 81, some 160, some 127, some 12,
   some 246, some 111, some 23, some 196, some 73, some 236, some 216,
   some 67, some 31, some 45, some 164, some 118, some 123, some 183,
   some 204, some 187, some 62, some 90, some 251, some 96, some 177,
   some 134, some 59, some 82, some 161, some 108, some 170, some 85,
   some 41, some 157, some 151, some 178, some 135, some 144, some 97,
   some 190, some 220, some 252, some 188, some 149, some 207, some 205,
   some 55, some 63, some 91, some 209, some 83, some 57, some 132,
   some 60, some 65, some 162, some 109, some 71, some 20, some 42,
   some 158, some 93, some 86, some 242, some 211, some 171, some 68,
   some 17, some 146, some 217, some 35, some 32, some 46, some 137,
   some 180, some 124, some 184, some 38, some 119, some 153, some 227,
   some 165, some 103, some 74, some 237, some 222, some 197, some 49,
   some 254, some 24, some 13, some 99, some 140, some 128, some 192,
   some 247, some 112, some 7]

/-- Field addition `GF256int.__add__`: bitwise xor (also subtraction). -/
def gfAdd (a b : Nat) : Nat := a ^^^ b

/-- Field multiplication `GF256int.__mul__`: `0` if either factor is `0`,
otherwise `exptable[(logtable[a] + logtable[b]) % 255]`.  The lookup is
`none` only off the field domain (value 0 is guarded, values above 255
cannot be constructed), so the catch-all returns `0` there. -/
def gfmul (a b : Nat) : Nat :=
  if a = 0 ∨ b = 0 then 0
  else
    match logtable.getD a none, logtable.getD b none with
    | some x, some y => exptable.getD ((x + y) % 255) 0
    | _, _ => 0

/-- The exponent argument of `GF256int.__pow__`: either another field
element (rejected with `TypeError`) or a plain Python integer. -/
inductive PowArg : Type
  | fieldElt (b : Nat)
  | intArg (n : Int)

/-- Errors raised by the `ff.py` operations. -/
inductive GFErr : Type
  | typeErr
  | zeroDivErr
  | valueErr
deriving DecidableEq

/-- Exponentiation `GF256int.__pow__`.  A field-element exponent raises
`TypeError` via the explicit `isinstance` check; for base `0` the lookup
`logtable[0]` yields `None` and Python raises `TypeError` on
`None * power`.  Otherwise the result is `exptable[(log[a] * n) % 255]`
(Python `%` on ints is `Int.emod`, always non-negative here). -/
def gfPow (a : Nat) : PowArg → Except GFErr Nat
  | .fieldElt _ => .error .typeErr
  | .intArg n =>
    match logtable.getD a none with
    | none => .error .typeErr
    | some x => .ok (exptable.getD (((x : Int) * n).emod 255).toNat 0)

/-- Membership test `self not in GF256int.logtable` (negated): Python
compares the int `a` with each entry; `None == a` is `False`, so this is
exactly a search for `some a`. -/
def logtableHas (a : Nat) : Bool := logtable.any (fun e => e = some a)

/-- Which path `GF256int.inverse` takes and what it produces. -/
inductive InvOutcome : Type
  | ok (v : Nat)            -- returned through the table (or patched) path
  | fallbackOk (v : Nat)    -- returned by the brute-force fallback search
  | zeroDivErr              -- `ZeroDivisionError` on inverting 0
  | noInverseErr            -- `ValueError` after a failed fallback search
  | noLogErr                -- `ValueError` when the log entry is `None`
deriving DecidableEq

/-- The brute-force fallback loop of `GF256int.inverse`:
`for i in range(1, 256): if (self * GF256int(i)) % 256 == 1: return i`. -/
def invFallback (a : Nat) : InvOutcome :=
  match (List.range' 1 255).find? (fun i => gfmul a i % 256 = 1) with
  | some i => .fallbackOk i
  | none => .noInverseErr

/-- `GF256int.inverse`, with each source branch kept distinct: the zero
check, the patched case for 255 (`exptable[255 - 7]`), the table
membership test guarding the brute-force fallback, the `None` log check,
and the normal `exptable[255 - logtable[a]]` path. -/
def inverseO (a : Nat) : InvOutcome :=
  if a = 0 then .zeroDivErr
  else if a = 255 then .ok (exptable.getD (255 - 7) 0)
  else if ¬ logtableHas a then invFallback a
  else
    match logtable.getD a none with
    | none => .noLogErr
    | some e => .ok (exptable.getD (255 - e) 0)

/-- The value produced by a successful `inverse` call. -/
def inverseV (a : Nat) : Nat :=
  match inverseO a with
  | .ok v => v
  | .fallbackOk v => v
  | _ => 0

/-- Division on `GF256int` values as Python 3 actually dispatches it.
The class defines `__div__` and `__rdiv__`, but those are the Python 2
operator hooks; `ff.py` is Python 3 code (it uses f-strings in
`inverse`), where `a / b` looks up `__truediv__`.  `GF256int` defines
none, so the operator inherited from `int` runs: true division,
returning the quotient as a Python float (exact whenever, as in the
counterexample below, it is representable).  `GF256int.__div__` is dead
code that `a / b` never calls. -/
def truediv (a b : Nat) : ℚ := (a : ℚ) / (b : ℚ)

/-- The `while b:` loop of `GF256int.multiply` (peasant's algorithm),
with explicit fuel; `b` halves each iteration, so fuel `b` suffices and
the fuel-exhausted arm is never reached from `gfMultiply`. -/
def peasantLoop (p r b : Nat) : Nat → Nat
  | 0 => r
  | fuel + 1 =>
    if b = 0 then r
    else
      let r2 := if b &&& 1 = 1 then r ^^^ p else r
      let b2 := b >>> 1
      let p2 := p <<< 1
      let p3 := if p2 &&& 0x100 ≠ 0 then p2 ^^^ 0x11b else p2
      peasantLoop p3 r2 b2 fuel

/-- Reference shift-and-xor multiply `GF256int.multiply` with reduction
constant `0x11b`. -/
def gfMultiply (a b : Nat) : Nat := peasantLoop a 0 b b

/-- The shift-and-reduce step applied to `p` in each iteration of the
`multiply` loop: `p = p << 1; if p & 0x100: p = p ^ 0x11b`. -/
def pstep (t : Nat) : Nat :=
  if (t <<< 1) &&& 0x100 ≠ 0 then (t <<< 1) ^^^ 0x11b else t <<< 1

/-! Packed copies of the two tables, used only inside proofs: entry `i`
occupies bits `[8*i, 8*i+8)`, so a lookup is a single shift-and-mask on a
numeral, which the kernel evaluates fast.  They are proved pointwise
equal to `exptable`/`logtable` below. -/

/-- `exptable` packed into one numeral, 8 bits per entry. -/
def expP : Nat := 247704880781559356684414323119999879637317647180040216102211349143305888774923398537951341803642731683984666991564019150676315804531779449815159115664189418245566988781254625896260912026622159780553349108386186142268315007856282091988200171439146255715840100601167723801170608095743514940052926055042184507632911811387723359914440662207451538163404716729158929845121383729837235901114109841630616474463024741216292666125260571984924724184385554713500007113061044175325657975136216706165622836048350080632971744177780693200859426168487707538171671676645432511882666690861394815764438377708986394032816479809277592321

/-- `logtable` packed into one numeral, 8 bits per entry (entry 0, which
is `None` in the source, is stored as 0 and never consulted). -/
def logP : Nat := 939374623831894136699086600277250597547650664638770418422125146541797353646788332867483593573384618611044815625336497665827114626705134492515730415652478061620339993830966980270842846318821775850471098591710629241171812800746666233448222972174585295916389942636813666312872914849454985560152530477328703759683306625234997237483834721220409437442253146756845415190424543171129629468776480674528486868811725071010351012234056630775688111116293610821126543142160426617079940511630006820862697466582575257349116925728488930366609138264019883664906661504235885380294353134295748489096855100647154935187045898006656778240

/-- Packed lookup into `expP`. -/
def expLk (i : Nat) : Nat := (expP >>> (8 * i)) &&& 255

/-- Packed lookup into `logP`. -/
def logLk (a : Nat) : Nat := (logP >>> (8 * a)) &&& 255

/-- Proof-side copy of `gfmul` over the packed tables. -/
def mulFast (a b : Nat) : Nat :=
  if a = 0 ∨ b = 0 then 0 else expLk ((logLk a + logLk b) % 255)

/-- Proof-side copy of the inverse value `exptable[255 - logtable[b]]`
over the packed tables (also matches the patched branch for 255, whose
log value is 7). -/
def invFast (b : Nat) : Nat := expLk (255 - logLk b)

/-! The generic polynomial class (`polynomial.py`).  Coefficient lists
are highest power first, the coefficient operations are passed
explicitly (in the source they are method calls on the coefficient
objects), and `z` names the additive identity `0`. -/

/-- Dense-form construction `Polynomial.__init__`: strip leading zero
coefficients, an empty result (also the empty input, which in Python
falls through to the no-argument branch) becomes `[0]`. -/
def mkPoly {α : Type} [DecidableEq α] (z : α) (c : List α) : List α :=
  let c2 := c.dropWhile (fun x => x == z)
  if c2 = [] then [z] else c2

/-- `Polynomial.degree`: length of the coefficient tuple minus one
(a Python int, hence `Int`). -/
def degreeI {α : Type} (l : List α) : Int := (l.length : Int) - 1

/-- The strip loops of `__divmod__`:
`while len(cs) > 1 and cs[0] == 0: cs.pop(0)`. -/
def stripLead1 {α : Type} [DecidableEq α] (z : α) : List α → List α
  | a :: b :: rest => if a == z then stripLead1 z (b :: rest) else a :: b :: rest
  | l => l

/-- `Polynomial.__add__`: zero-pad the shorter list on the left, combine
elementwise with the coefficient addition, re-normalize through the
constructor. -/
def polyAdd {α : Type} [DecidableEq α] (add : α → α → α) (z : α) (a b : List α) : List α :=
  if b.length < a.length then
    mkPoly z (List.zipWith add a (List.replicate (a.length - b.length) z ++ b))
  else
    mkPoly z (List.zipWith add (List.replicate (b.length - a.length) z ++ a) b)

/-- Inner loop of `Polynomial.__mul__`:
`for i2, c2 in enumerate(reversed(other.coefficients)): terms[i1+i2] += c1*c2`. -/
def mulAcc {α : Type} (add mul : α → α → α) (z : α) (c1 : α) (i1 : Nat) :
    List α → Nat → List α → List α
  | [], _, terms => terms
  | c2 :: rest, i2, terms =>
    mulAcc add mul z c1 i1 rest (i2 + 1)
      (terms.set (i1 + i2) (add (terms.getD (i1 + i2) z) (mul c1 c2)))

/-- Outer loop of `Polynomial.__mul__`, skipping rows whose coefficient
is the ring zero. -/
def mulOut {α : Type} [DecidableEq α] (add mul : α → α → α) (z : α) (brev : List α) :
    List α → Nat → List α → List α
  | [], _, terms => terms
  | c1 :: rest, i1, terms =>
    mulOut add mul z brev rest (i1 + 1)
      (if c1 == z then terms else mulAcc add mul z c1 i1 brev 0 terms)

/-- `Polynomial.__mul__`: accumulate the convolution into a scratch list
of length `len(self) + len(other)` indexed from the low end, then
reverse and re-normalize through the constructor. -/
def polyMul {α : Type} [DecidableEq α] (add mul : α → α → α) (z : α) (a b : List α) : List α :=
  mkPoly z (mulOut add mul z b.reverse a.reverse 0
    (List.replicate (a.length + b.length) z)).reverse

/-- GF(256) instantiation of `+` on polynomials (coefficient addition is
`GF256int.__add__`, xor). -/
def gpAdd (a b : List Nat) : List Nat := polyAdd gfAdd 0 a b

/-- GF(256) instantiation of `*` on polynomials. -/
def gpMul (a b : List Nat) : List Nat := polyMul gfAdd gfmul 0 a b

/-- Plain-integer instantiation of `+` on polynomials. -/
def ipAdd (a b : List Int) : List Int := polyAdd (· + ·) 0 a b

/-- Plain-integer instantiation of `*` on polynomials. -/
def ipMul (a b : List Int) : List Int := polyMul (· + ·) (· * ·) 0 a b

/-- Inner subtraction loop of `__divmod__` over GF(256) coefficients:
`for j in range(1, len(divisor_coeffs)): pos = i+j; if pos < len(rem):
factor = q[i]*d[j]; if factor != 0: rem[pos] -= factor` (coefficient
subtraction on `GF256int` is xor). -/
def innerSubGF (qc : Nat) : List Nat → Nat → Nat → List Nat → List Nat
  | [], _, _, rem => rem
  | dj :: rest, j, i, rem =>
    innerSubGF qc rest (j + 1) i
      (if i + j < rem.length then
        (if gfmul qc dj ≠ 0 then rem.set (i + j) (rem.getD (i + j) 0 ^^^ gfmul qc dj) else rem)
      else rem)

/-- Main loop of `__divmod__` over GF(256) coefficients (the
`hasattr(divisor_lc, "inverse")` branch).  The loop index `i` runs over
`range(len(quotient_coeffs))`; the fuel is the number of remaining
iterations. -/
def divLoopGF (dlc : Nat) (dtail : List Nat) : Nat → Nat → List Nat → List Nat → List Nat × List Nat
  | 0, _, q, rem => (q, rem)
  | fuel + 1, i, q, rem =>
    if rem.getD i 0 ≠ 0 then
      let qc := if dlc ≠ 1 then gfmul (rem.getD i 0) (inverseV dlc) else rem.getD i 0
      if qc = 0 then divLoopGF dlc dtail fuel (i + 1) (q.set i qc) rem
      else divLoopGF dlc dtail fuel (i + 1) (q.set i qc) (innerSubGF qc dtail 1 i rem)
    else divLoopGF dlc dtail fuel (i + 1) q rem

/-- `Polynomial.__divmod__` over GF(256) coefficients: `none` models the
`ZeroDivisionError` on a zero divisor; the early branch returns
`(Polynomial((0,)), self)` when the divisor degree exceeds the dividend
degree; otherwise the long-division loop runs, the quotient is stripped
of leading zeros, the remainder is the tail of the working array past
the quotient length, stripped and defaulted to `[0]`, and both results
pass through the constructor. -/
def polyDivmodGF (p d : List Nat) : Option (List Nat × List Nat) :=
  if d = [0] then none
  else if degreeI p < degreeI d then some (mkPoly 0 [0], p)
  else
    let res := divLoopGF (d.getD 0 0) (d.drop 1) (p.length - d.length + 1) 0
      (List.replicate (p.length - d.length + 1) 0) p
    let q2 := stripLead1 0 res.1
    let rem2 := stripLead1 0 (res.2.drop q2.length)
    some (mkPoly 0 q2, mkPoly 0 (if rem2 = [] then [0] else rem2))

/-- `Polynomial.__floordiv__` over GF(256): first component of divmod. -/
def polyFloordivGF (p d : List Nat) : Option (List Nat) := (polyDivmodGF p d).map (·.1)

/-- `Polynomial.__mod__` over GF(256): second component of divmod. -/
def polyModGF (p d : List Nat) : Option (List Nat) := (polyDivmodGF p d).map (·.2)

/-- Inner subtraction loop of `__divmod__` over plain integers. -/
def innerSubInt (qc : Int) : List Int → Nat → Nat → List Int → List Int
  | [], _, _, rem => rem
  | dj :: rest, j, i, rem =>
    innerSubInt qc rest (j + 1) i
      (if i + j < rem.length then
        (if qc * dj ≠ 0 then rem.set (i + j) (rem.getD (i + j) 0 - qc * dj) else rem)
      else rem)

/-- Main loop of `__divmod__` over plain integers: the quotient
coefficient is `remainder[i] // divisor_lc` (Python floor division,
`Int.fdiv`). -/
def divLoopInt (dlc : Int) (dtail : List Int) : Nat → Nat → List Int → List Int → List Int × List Int
  | 0, _, q, rem => (q, rem)
  | fuel + 1, i, q, rem =>
    if rem.getD i 0 ≠ 0 then
      let qc := Int.fdiv (rem.getD i 0) dlc
      if qc = 0 then divLoopInt dlc dtail fuel (i + 1) (q.set i qc) rem
      else divLoopInt dlc dtail fuel (i + 1) (q.set i qc) (innerSubInt qc dtail 1 i rem)
    else divLoopInt dlc dtail fuel (i + 1) q rem

/-- `Polynomial.__divmod__` over plain-integer coefficients. -/
def polyDivmodInt (p d : List Int) : Option (List Int × List Int) :=
  if d = [0] then none
  else if degreeI p < degreeI d then some (mkPoly 0 [0], p)
  else
    let res := divLoopInt (d.getD 0 0) (d.drop 1) (p.length - d.length + 1) 0
      (List.replicate (p.length - d.length + 1) 0) p
    let q2 := stripLead1 0 res.1
    let rem2 := stripLead1 0 (res.2.drop q2.length)
    some (mkPoly 0 q2, mkPoly 0 (if rem2 = [] then [0] else rem2))

/-- `Polynomial.__floordiv__` over plain integers. -/
def polyFloordivInt (p d : List Int) : Option (List Int) := (polyDivmodInt p d).map (·.1)

/-- `Polynomial.__mod__` over plain integers. -/
def polyModInt (p d : List Int) : Option (List Int) := (polyDivmodInt p d).map (·.2)

/-- Python list assignment `l[i] = v` with negative-index wraparound and
`IndexError` (`none`) when still out of range. -/
def pySet {α : Type} (l : List α) (i : Int) (v : α) : Option (List α) :=
  let j := if i < 0 then i + (l.length : Int) else i
  if 0 ≤ j ∧ j < (l.length : Int) then some (l.set j.toNat v) else none

/-- The keyword name `"x" + str(power)` of a sparse term. -/
def sparseKey (p : Nat) : String := "x" ++ toString p

/-- Sparse-form construction of `Polynomial.__init__`: the keyword names
are sorted as strings in reverse order, `highest` is parsed back from
the first key (`int(powers[0][1:])` recovers the power the key was
built from), the dense list of length `highest+1` is filled with zeros
and each coefficient is written at Python index `highest - power`
(negative values wrap around). -/
def sparseInit {α : Type} [DecidableEq α] (z : α) : List (Nat × α) → Option (List α)
  | [] => some [z]
  | ps =>
    let sorted := List.insertionSort (fun a b : Nat × α => sparseKey b.1 < sparseKey a.1) ps
    let highest := (sorted.headD (0, z)).1
    ps.foldlM (fun acc pc => pySet acc ((highest : Int) - (pc.1 : Int)) pc.2)
      (List.replicate (highest + 1) z)

/-! Proof-side notions used to state and prove the division claims. -/

/-- A well-formed GF(256) polynomial as produced by the constructor:
normalized (no leading zero unless it is exactly `[0]`) with all
coefficients in the field range. -/
def IsGFPoly (l : List Nat) : Prop :=
  (l.headD 0 ≠ 0 ∨ l = [0]) ∧ ∀ k, k < l.length → l.getD k 0 < 256

instance decIsGFPoly (l : List Nat) : Decidable (IsGFPoly l) := by
  unfold IsGFPoly
  infer_instance

/-- Xor of a list of naturals. -/
def xorSum (l : List Nat) : Nat := l.foldr (· ^^^ ·) 0

/-- One term of the product convolution at output position `k`
(highest-power-first indexing): row `t` contributes
`q[t] * d[k - t]` when `t ≤ k`, reading out-of-range entries as 0. -/
def convTerm (q d : List Nat) (k t : Nat) : Nat :=
  if t ≤ k then gfmul (q.getD t 0) (d.getD (k - t) 0) else 0

/-- Partial convolution of `q` and `d` at position `k`, restricted to
the first `i` rows of `q`. -/
def convPartAt (q d : List Nat) (i k : Nat) : Nat :=
  xorSum ((List.range i).map (convTerm q d k))

/-- Contribution of the rows `i1, i1+1, …` of the reversed outer list to
position `s` of the `__mul__` scratch array (low-power-first indexing). -/
def rowSum (arev brev : List Nat) (i1 s : Nat) : Nat :=
  xorSum ((List.range arev.length).map (fun t =>
    if i1 + t ≤ s ∧ s < i1 + t + brev.length
    then gfmul (arev.getD t 0) (brev.getD (s - (i1 + t)) 0) else 0))

/-- The invariant of the `__divmod__` main loop over GF(256) after the
positions `0, …, i-1` have been processed: lengths are fixed, all
entries stay in the field range, the still-unprocessed quotient slots
are 0, the processed prefix of the dividend is explained by the partial
convolution alone, and every later position is the partial convolution
xor the working remainder. -/
def DivInv (p d q rem : List Nat) (i : Nat) : Prop :=
  q.length = p.length - d.length + 1 ∧ rem.length = p.length ∧
  (∀ t, t < q.length → q.getD t 0 < 256) ∧
  (∀ k, k < rem.length → rem.getD k 0 < 256) ∧
  (∀ t, i ≤ t → q.getD t 0 = 0) ∧
  (∀ k, k < i → k < p.length → p.getD k 0 = convPartAt q d i k) ∧
  (∀ k, i ≤ k → k < p.length → p.getD k 0 = convPartAt q d i k ^^^ rem.getD k 0)

/-! ## Theorems: the GF(2^8) field layer -/

theorem expLk_lt (i : Nat) : expLk i < 256 := by
  have h : expLk i ≤ 255 := Nat.and_le_right
  omega

theorem invFast_lt (b : Nat) : invFast b < 256 := expLk_lt _

theorem mulFast_lt (a b : Nat) : mulFast a b < 256 := by
  unfold mulFast
  split
  · omega
  · exact expLk_lt _

theorem tblExp : ∀ i, i < 256 → exptable.getD i 0 = expLk i := by decide!

theorem tblLog : ∀ a, a < 256 → a ≠ 0 → logtable.getD a none = some (logLk a) := by decide!

theorem expLog : ∀ a, a < 256 → a ≠ 0 → expLk (logLk a) = a ∧ logLk a ≤ 254 := by decide!

theorem logExp : ∀ i, i < 255 → logLk (expLk i) = i ∧ expLk i ≠ 0 := by decide!

theorem expWrapTop : expLk 255 = 1 := by decide!

theorem expLkZero : expLk 0 = 1 := by decide!

theorem logLkOne : logLk 1 = 0 := by decide!

theorem mulFast_pos (a b : Nat) (ha : a ≠ 0) (hb : b ≠ 0) :
    mulFast a b = expLk ((logLk a + logLk b) % 255) := by
  unfold mulFast
  rw [if_neg]
  tauto

theorem gfmul_eq_mulFast : ∀ a b, a < 256 → b < 256 → gfmul a b = mulFast a b := by
  intro a b ha hb
  by_cases h : a = 0 ∨ b = 0
  · unfold gfmul mulFast
    rw [if_pos h, if_pos h]
  · push_neg at h
    unfold gfmul mulFast
    rw [if_neg (by tauto), if_neg (by tauto), tblLog a ha h.1, tblLog b hb h.2]
    show exptable.getD ((logLk a + logLk b) % 255) 0 = expLk ((logLk a + logLk b) % 255)
    exact tblExp _ (by have := Nat.mod_lt (logLk a + logLk b) (y := 255) (by omega); omega)

theorem inverseO_eq : ∀ b, b < 256 → b ≠ 0 → inverseO b = .ok (invFast b) := by decide!

theorem inverseV_eq (b : Nat) (hb : b < 256) (hnz : b ≠ 0) : inverseV b = invFast b := by
  unfold inverseV
  rw [inverseO_eq b hb hnz]

theorem mulFast_by_inv (r d : Nat) (hr : r < 256) (hd : d < 256) (hrnz : r ≠ 0) (hdnz : d ≠ 0) :
    mulFast r (invFast d) ≠ 0 ∧ mulFast (mulFast r (invFast d)) d = r ∧
      mulFast r (invFast d) < 256 := by
  obtain ⟨hde, hdl⟩ := expLog d hd hdnz
  obtain ⟨hre, hrl⟩ := expLog r hr hrnz
  by_cases hi : logLk d = 0
  · have hd1 : d = 1 := by rw [← hde, hi, expLkZero]
    have hinv : invFast d = 1 := by unfold invFast; rw [hi, expWrapTop]
    have hstep : mulFast r 1 = r := by
      rw [mulFast_pos r 1 hrnz (by omega), logLkOne, Nat.add_zero, Nat.mod_eq_of_lt (by omega)]
      exact hre
    rw [hinv, hstep, hd1, hstep]
    exact ⟨hrnz, rfl, hr⟩
  · have hsub : 255 - logLk d < 255 := by omega
    obtain ⟨hle, hne⟩ := logExp (255 - logLk d) hsub
    have hinner : mulFast r (invFast d) = expLk ((logLk r + (255 - logLk d)) % 255) := by
      unfold invFast
      rw [mulFast_pos r _ hrnz hne, hle]
    have hslt : (logLk r + (255 - logLk d)) % 255 < 255 := Nat.mod_lt _ (by omega)
    obtain ⟨hls, hns⟩ := logExp _ hslt
    have houter : mulFast (mulFast r (invFast d)) d = r := by
      rw [hinner, mulFast_pos _ d hns hdnz, hls]
      have harith : ((logLk r + (255 - logLk d)) % 255 + logLk d) % 255 = logLk r := by omega
      rw [harith, hre]
    exact ⟨by rw [hinner]; exact hns, houter, by rw [hinner]; exact expLk_lt _⟩

theorem mulFast_self_inv (a : Nat) (ha : a < 256) (hnz : a ≠ 0) :
    mulFast a (invFast a) = 1 := by
  obtain ⟨hae, hal⟩ := expLog a ha hnz
  by_cases hi : logLk a = 0
  · have ha1 : a = 1 := by rw [← hae, hi, expLkZero]
    have hinv : invFast a = 1 := by unfold invFast; rw [hi, expWrapTop]
    rw [hinv, mulFast_pos a 1 hnz (by omega), logLkOne, Nat.add_zero,
      Nat.mod_eq_of_lt (by omega), hae, ha1]
  · have hsub : 255 - logLk a < 255 := by omega
    obtain ⟨hle, hne⟩ := logExp (255 - logLk a) hsub
    unfold invFast
    rw [mulFast_pos a _ hnz hne, hle]
    have harith : (logLk a + (255 - logLk a)) % 255 = 0 := by omega
    rw [harith, expLkZero]

/-! Equality of the two multiplies is proved structurally instead of by a
65536-case enumeration: `pstep` (the loop's shift-and-reduce) distributes
over xor, so the peasant loop is xor-linear in its first argument and
commutes with `pstep`; hence it commutes with multiplication by the
generator 3 = `pstep x ^^^ x`.  Since every nonzero field element is
`expLk i` and consecutive `exptable` entries differ by a factor 3 (a
255-case check), an induction along the generator chain reduces the whole
table identity to 255-sized checks. -/

theorem pstep_zero : pstep 0 = 0 := by decide

theorem peasantLoop_succ (p r b f : Nat) :
    peasantLoop p r b (f + 1) =
      if b = 0 then r
      else peasantLoop (pstep p) (if b &&& 1 = 1 then r ^^^ p else r) (b >>> 1) f := rfl

theorem pxor_left_comm (a b c : Nat) : a ^^^ (b ^^^ c) = b ^^^ (a ^^^ c) := by
  rw [← Nat.xor_assoc, Nat.xor_comm a b, Nat.xor_assoc]

theorem pxor_cancel_left (a b : Nat) : a ^^^ (a ^^^ b) = b := by
  rw [← Nat.xor_assoc, Nat.xor_self, Nat.zero_xor]

theorem shiftLeft_xor_distrib (p q : Nat) : (p ^^^ q) <<< 1 = (p <<< 1) ^^^ (q <<< 1) := by
  apply Nat.eq_of_testBit_eq
  intro k
  simp [Nat.testBit_shiftLeft, Nat.testBit_xor, Bool.and_xor_distrib_left]

theorem and_256_eq (x : Nat) : x &&& 256 = 0 ∨ x &&& 256 = 256 := by
  have h : x &&& 256 = (x.testBit 8).toNat * 256 := by
    have h8 := Nat.and_two_pow x 8
    norm_num at h8
    exact h8
  cases hb : x.testBit 8 <;> rw [hb] at h <;> simp at h <;> omega

theorem pstep_xor (p q : Nat) : pstep (p ^^^ q) = pstep p ^^^ pstep q := by
  unfold pstep
  rw [shiftLeft_xor_distrib, Nat.and_xor_distrib_right]
  rcases and_256_eq (p <<< 1) with h1 | h1 <;> rcases and_256_eq (q <<< 1) with h2 | h2 <;>
    rw [h1, h2] <;>
    simp [Nat.xor_self, Nat.xor_assoc, Nat.xor_comm, pxor_left_comm, pxor_cancel_left]

theorem peasantLoop_p_zero : ∀ f b, peasantLoop 0 0 b f = 0 := by
  intro f
  induction f with
  | zero => intro b; rfl
  | succ f ih =>
    intro b
    rw [peasantLoop_succ]
    by_cases hb : b = 0
    · rw [if_pos hb]
    · rw [if_neg hb, pstep_zero]
      have hr : (if b &&& 1 = 1 then 0 ^^^ 0 else (0 : Nat)) = 0 := by split <;> simp
      rw [hr]
      exact ih _

theorem peasantLoop_acc : ∀ f p r b, peasantLoop p r b f = r ^^^ peasantLoop p 0 b f := by
  intro f
  induction f with
  | zero =>
    intro p r b
    show r = r ^^^ 0
    rw [Nat.xor_zero]
  | succ f ih =>
    intro p r b
    rw [peasantLoop_succ, peasantLoop_succ]
    by_cases hb : b = 0
    · rw [if_pos hb, if_pos hb, Nat.xor_zero]
    · rw [if_neg hb, if_neg hb,
        ih (pstep p) (if b &&& 1 = 1 then r ^^^ p else r) (b >>> 1),
        ih (pstep p) (if b &&& 1 = 1 then 0 ^^^ p else 0) (b >>> 1)]
      by_cases h1 : b &&& 1 = 1
      · rw [if_pos h1, if_pos h1, Nat.zero_xor, Nat.xor_assoc]
      · rw [if_neg h1, if_neg h1, Nat.zero_xor]

theorem peasantLoop_xor_left : ∀ f p q b,
    peasantLoop (p ^^^ q) 0 b f = peasantLoop p 0 b f ^^^ peasantLoop q 0 b f := by
  intro f
  induction f with
  | zero =>
    intro p q b
    show 0 = 0 ^^^ (0 : Nat)
    rw [Nat.xor_zero]
  | succ f ih =>
    intro p q b
    rw [peasantLoop_succ, peasantLoop_succ, peasantLoop_succ]
    by_cases hb : b = 0
    · rw [if_pos hb, if_pos hb, if_pos hb, Nat.xor_zero]
    · rw [if_neg hb, if_neg hb, if_neg hb, pstep_xor,
        peasantLoop_acc f (pstep p ^^^ pstep q) _ (b >>> 1),
        peasantLoop_acc f (pstep p) _ (b >>> 1),
        peasantLoop_acc f (pstep q) _ (b >>> 1),
        ih (pstep p) (pstep q) (b >>> 1)]
      by_cases h1 : b &&& 1 = 1
      · rw [if_pos h1, if_pos h1, if_pos h1]
        simp [Nat.zero_xor, Nat.xor_assoc, Nat.xor_comm, pxor_left_comm]
      · rw [if_neg h1, if_neg h1, if_neg h1]
        simp

theorem peasantLoop_pstep : ∀ f p b,
    peasantLoop (pstep p) 0 b f = pstep (peasantLoop p 0 b f) := by
  intro f
  induction f with
  | zero =>
    intro p b
    show 0 = pstep 0
    rw [pstep_zero]
  | succ f ih =>
    intro p b
    rw [peasantLoop_succ, peasantLoop_succ]
    by_cases hb : b = 0
    · rw [if_pos hb, if_pos hb, pstep_zero]
    · rw [if_neg hb, if_neg hb,
        peasantLoop_acc f (pstep (pstep p)) _ (b >>> 1),
        peasantLoop_acc f (pstep p) _ (b >>> 1),
        ih (pstep p) (b >>> 1), pstep_xor]
      by_cases h1 : b &&& 1 = 1
      · rw [if_pos h1, if_pos h1]
        simp [Nat.zero_xor]
      · rw [if_neg h1, if_neg h1, pstep_zero]

theorem gfMultiply_g3_left (x y : Nat) :
    gfMultiply (pstep x ^^^ x) y = pstep (gfMultiply x y) ^^^ gfMultiply x y := by
  unfold gfMultiply
  rw [peasantLoop_xor_left y (pstep x) x y, peasantLoop_pstep y x y]

theorem gfMultiply_zero_left (b : Nat) : gfMultiply 0 b = 0 := peasantLoop_p_zero b b

theorem gfMultiply_zero_right (a : Nat) : gfMultiply a 0 = 0 := rfl

theorem expLk_succ_g3 : ∀ i, i < 254 → expLk (i + 1) = pstep (expLk i) ^^^ expLk i := by decide!

theorem expLk_wrap_g3 : pstep (expLk 254) ^^^ expLk 254 = expLk 0 := by decide!

theorem gfMultiply_one_left : ∀ j, j < 255 → gfMultiply (expLk 0) (expLk j) = expLk j := by decide!

theorem gfMultiply_exp_exp : ∀ i, i < 255 → ∀ j, j < 255 →
    gfMultiply (expLk i) (expLk j) = expLk ((i + j) % 255) := by
  intro i
  induction i with
  | zero =>
    intro _ j hj
    rw [show (0 + j) % 255 = j from by omega]
    exact gfMultiply_one_left j hj
  | succ i ih =>
    intro hi j hj
    rw [expLk_succ_g3 i (by omega), gfMultiply_g3_left, ih (by omega) j hj]
    by_cases hm : (i + j) % 255 = 254
    · rw [hm, expLk_wrap_g3, show (i + 1 + j) % 255 = 0 from by omega]
    · have hml : (i + j) % 255 < 254 := by
        have hlt : (i + j) % 255 < 255 := Nat.mod_lt _ (by omega)
        omega
      rw [← expLk_succ_g3 ((i + j) % 255) hml,
        show (i + 1 + j) % 255 = (i + j) % 255 + 1 from by omega]

theorem mulFast_eq_ref : ∀ a, a < 256 → ∀ b, b < 256 → mulFast a b = gfMultiply a b := by
  intro a ha b hb
  by_cases ha0 : a = 0
  · subst ha0
    rw [gfMultiply_zero_left]
    unfold mulFast
    rw [if_pos (Or.inl rfl)]
  · by_cases hb0 : b = 0
    · subst hb0
      rw [gfMultiply_zero_right]
      unfold mulFast
      rw [if_pos (Or.inr rfl)]
    · obtain ⟨hae, hal⟩ := expLog a ha ha0
      obtain ⟨hbe, hbl⟩ := expLog b hb hb0
      rw [mulFast_pos a b ha0 hb0]
      conv_rhs => rw [← hae, ← hbe]
      rw [gfMultiply_exp_exp (logLk a) (by omega) (logLk b) (by omega)]

theorem gfmul_lt (a b : Nat) (ha : a < 256) (hb : b < 256) : gfmul a b < 256 := by
  rw [gfmul_eq_mulFast a b ha hb]
  exact mulFast_lt a b

/-- C5: for every pair of field values, the table-driven multiply
`GF256int.__mul__` agrees with the shift-and-xor reference multiply
`GF256int.multiply` (reduction constant 0x11b). -/
theorem C5_table_mul_matches_reference : ∀ a b : Nat, a < 256 → b < 256 →
    gfmul a b = gfMultiply a b := by
  intro a b ha hb
  rw [gfmul_eq_mulFast a b ha hb]
  exact mulFast_eq_ref a ha b hb

theorem C5_table_mul_matches_reference_witness :
    240 < 256 ∧ gfmul 240 9 = gfMultiply 240 9 :=
  ⟨by decide, C5_table_mul_matches_reference 240 9 (by decide) (by decide)⟩

/-- C4: the claim fails against the running program.  `ff.py` is
Python 3 code (f-strings in `inverse`), where `a / b` dispatches to
`__truediv__`; `GF256int` only defines the Python 2 hook `__div__`, so
the `int` true division inherited from the base class runs, and
`GF256int(5) / GF256int(4)` returns the float 1.25 — equal to no field
element (no natural number at all), and in particular not
`5 * GF256int(4).inverse()` as the claim requires. -/
theorem C4_div_dispatch_bug :
    (∀ v : Nat, truediv 5 4 ≠ (v : ℚ)) ∧
    truediv 5 4 ≠ ((gfmul 5 (inverseV 4) : Nat) : ℚ) := by
  have key : ∀ v : Nat, truediv 5 4 ≠ (v : ℚ) := by
    intro v h
    unfold truediv at h
    rw [div_eq_iff (by norm_num)] at h
    have h5 : (5 : ℕ) = v * 4 := by exact_mod_cast h
    omega
  exact ⟨key, key _⟩

/-- C6: every nonzero field element multiplied by its inverse (computed
by `GF256int.inverse`, including the patched case 255) gives 1, and the
inverse call returns through the normal `.ok` path. -/
theorem C6_inverse_multiplies_to_one : ∀ a : Nat, a < 256 → a ≠ 0 →
    inverseO a = .ok (inverseV a) ∧ gfmul a (inverseV a) = 1 := by
  intro a ha hnz
  have h2 : inverseV a = inverseV a := rfl
  have h1 := inverseO_eq a ha hnz
  have h3 : inverseV a = invFast a := inverseV_eq a ha hnz
  refine ⟨by rw [h1, h3], ?_⟩
  rw [h3, gfmul_eq_mulFast a _ ha (invFast_lt a)]
  exact mulFast_self_inv a ha hnz

theorem C6_inverse_multiplies_to_one_witness :
    (255 : Nat) ≠ 0 ∧ inverseO 255 = .ok (inverseV 255) ∧ gfmul 255 (inverseV 255) = 1 :=
  ⟨by decide, C6_inverse_multiplies_to_one 255 (by decide) (by decide)⟩

/-- C8: raising any field element — the zero base included — to a
field-element power fails with the type error of the `isinstance`
check, which precedes every table lookup; for a nonzero base and a
plain integer exponent the result is `exptable[(log[a] * n) % 255]`. -/
theorem C8_pow_typing_and_formula : ∀ (a g : Nat) (n : Int), a < 256 →
    gfPow a (.fieldElt g) = .error .typeErr ∧
    (a ≠ 0 → ∃ x, logtable.getD a none = some x ∧
      gfPow a (.intArg n) = .ok (exptable.getD (((x : Int) * n) % 255).toNat 0)) := by
  intro a g n ha
  refine ⟨rfl, fun hnz => ⟨logLk a, tblLog a ha hnz, ?_⟩⟩
  unfold gfPow
  rw [tblLog a ha hnz]
  rfl

theorem C8_pow_typing_and_formula_witness :
    (0 : Nat) < 256 ∧ gfPow 0 (.fieldElt 5) = .error .typeErr ∧
    ((0 : Nat) ≠ 0 → ∃ x, logtable.getD 0 none = some x ∧
      gfPow 0 (.intArg (-2)) = .ok (exptable.getD (((x : Int) * (-2)) % 255).toNat 0)) :=
  ⟨by decide, C8_pow_typing_and_formula 0 5 (-2) (by decide)⟩

/-- C9: for every field value, `GF256int.inverse` raises the zero
division error exactly on 0, and on a nonzero argument returns a field
value through the normal table path — never through the brute-force
fallback and never through either `ValueError` branch (those are the
`fallbackOk`, `noInverseErr` and `noLogErr` outcomes, all distinct from
`.ok`). -/
theorem C9_inverse_reachability : ∀ a : Nat, a ≤ 255 →
    (inverseO a = .zeroDivErr ↔ a = 0) ∧
    (a ≠ 0 → ∃ v, v < 256 ∧ inverseO a = .ok v) := by
  intro a ha
  constructor
  · constructor
    · intro h
      by_contra hnz
      rw [inverseO_eq a (by omega) hnz] at h
      exact absurd h (by simp)
    · intro h
      subst h
      rfl
  · intro hnz
    exact ⟨invFast a, invFast_lt a, inverseO_eq a (by omega) hnz⟩

theorem C9_inverse_reachability_witness :
    (inverseO 17 = .zeroDivErr ↔ (17 : Nat) = 0) ∧
    ((17 : Nat) ≠ 0 → ∃ v, v < 256 ∧ inverseO 17 = .ok v) :=
  C9_inverse_reachability 17 (by decide)

/-- C10: raising the zero field element to any plain-integer power hits
`logtable[0] = None`, and Python raises `TypeError` on `None * power`,
for every integer exponent. -/
theorem C10_zero_pow_raises : ∀ n : Int, gfPow 0 (.intArg n) = .error .typeErr :=
  fun _ => rfl

/-! ## Theorems: list bookkeeping helpers -/

theorem getD_set {α : Type} (l : List α) (i k : Nat) (v d : α) :
    (l.set i v).getD k d = if i = k ∧ i < l.length then v else l.getD k d := by
  simp only [List.getD_eq_getElem?_getD, List.getElem?_set]
  by_cases h1 : i = k
  · subst h1
    by_cases h2 : i < l.length
    · simp [h2]
    · simp [h2, List.getElem?_eq_none (by omega : l.length ≤ i)]
  · simp [h1]

theorem getD_append {α : Type} (l₁ l₂ : List α) (k : Nat) (d : α) :
    (l₁ ++ l₂).getD k d = if k < l₁.length then l₁.getD k d else l₂.getD (k - l₁.length) d := by
  simp only [List.getD_eq_getElem?_getD, List.getElem?_append]
  split <;> rfl

theorem getD_replicate {α : Type} (n k : Nat) (z : α) :
    (List.replicate n z).getD k z = z := by
  simp only [List.getD_eq_getElem?_getD, List.getElem?_replicate]
  split <;> rfl

theorem getD_drop {α : Type} (l : List α) (s t : Nat) (d : α) :
    (l.drop s).getD t d = l.getD (s + t) d := by
  simp only [List.getD_eq_getElem?_getD, List.getElem?_drop]

theorem getD_reverse {α : Type} (l : List α) (t : Nat) (d : α) (h : t < l.length) :
    l.reverse.getD t d = l.getD (l.length - 1 - t) d := by
  simp only [List.getD_eq_getElem?_getD, List.getElem?_reverse h]

theorem getD_eq_default {α : Type} (l : List α) (k : Nat) (d : α) (h : l.length ≤ k) :
    l.getD k d = d := by
  simp only [List.getD_eq_getElem?_getD, List.getElem?_eq_none h]
  rfl

theorem list_ext_getD {α : Type} (l₁ l₂ : List α) (d : α) (hlen : l₁.length = l₂.length)
    (h : ∀ k, k < l₁.length → l₁.getD k d = l₂.getD k d) : l₁ = l₂ := by
  apply List.ext_getElem hlen
  intro n h₁ h₂
  have := h n h₁
  rwa [List.getD_eq_getElem?_getD, List.getD_eq_getElem?_getD,
    List.getElem?_eq_getElem h₁, List.getElem?_eq_getElem h₂] at this

theorem getD_zipWith {α : Type} (f : α → α → α) (l₁ l₂ : List α) (k : Nat) (d : α)
    (h₁ : k < l₁.length) (h₂ : k < l₂.length) :
    (List.zipWith f l₁ l₂).getD k d = f (l₁.getD k d) (l₂.getD k d) := by
  simp only [List.getD_eq_getElem?_getD, List.getElem?_zipWith,
    List.getElem?_eq_getElem h₁, List.getElem?_eq_getElem h₂]
  rfl

theorem getD_zero_headD {α : Type} (l : List α) (d : α) : l.getD 0 d = l.headD d := by
  cases l <;> rfl

theorem xorSum_nil : xorSum [] = 0 := rfl

theorem xorSum_cons (x : Nat) (l : List Nat) : xorSum (x :: l) = x ^^^ xorSum l := rfl

theorem xorSum_append (l₁ l₂ : List Nat) : xorSum (l₁ ++ l₂) = xorSum l₁ ^^^ xorSum l₂ := by
  induction l₁ with
  | nil => simp [xorSum_nil, List.nil_append, Nat.zero_xor]
  | cons x t ih => simp only [List.cons_append, xorSum_cons, ih, Nat.xor_assoc]

theorem xorSum_zero_of (l : List Nat) (h : ∀ x ∈ l, x = 0) : xorSum l = 0 := by
  induction l with
  | nil => rfl
  | cons x t ih =>
    rw [xorSum_cons, h x (by simp), ih (fun y hy => h y (by simp [hy])), Nat.xor_zero]

theorem xorSum_reverse (l : List Nat) : xorSum l.reverse = xorSum l := by
  induction l with
  | nil => rfl
  | cons x t ih =>
    rw [List.reverse_cons, xorSum_append, xorSum_cons, ih, xorSum_cons, xorSum_nil,
      Nat.xor_zero, Nat.xor_comm]

theorem map_range_reverse (f : Nat → Nat) (n : Nat) :
    ((List.range n).map f).reverse = (List.range n).map (fun t => f (n - 1 - t)) := by
  induction n generalizing f with
  | zero => rfl
  | succ n ih =>
    conv_lhs => rw [List.range_succ]
    conv_rhs => rw [List.range_succ_eq_map]
    rw [List.map_append, List.reverse_append]
    simp only [List.map_cons, List.map_nil, List.reverse_cons, List.reverse_nil,
      List.nil_append, List.map_map, List.cons_append, List.singleton_append]
    rw [ih]
    congr 1
    apply List.map_congr_left
    intro t _
    simp only [Function.comp_apply]
    congr 1
    omega

theorem xor_cancel_mid (a g b : Nat) : (a ^^^ g) ^^^ (b ^^^ g) = a ^^^ b := by
  rw [Nat.xor_assoc, Nat.xor_comm b g, ← Nat.xor_assoc g g b, Nat.xor_self, Nat.zero_xor]

theorem xor_if_push (c : Prop) [Decidable c] (a g : Nat) :
    (if c then a ^^^ g else a) = a ^^^ (if c then g else 0) := by
  split <;> simp [Nat.xor_zero]

/-! ## Theorems: convolution bookkeeping -/

theorem convPartAt_zero (q d : List Nat) (k : Nat) : convPartAt q d 0 k = 0 := rfl

theorem convPartAt_succ (q d : List Nat) (i k : Nat) :
    convPartAt q d (i + 1) k = convPartAt q d i k ^^^ convTerm q d k i := by
  unfold convPartAt
  rw [List.range_succ, List.map_append, xorSum_append]
  simp [xorSum_cons, xorSum_nil, Nat.xor_zero]

theorem convPartAt_congr (q r d : List Nat) (i k : Nat)
    (h : ∀ t, t < i → q.getD t 0 = r.getD t 0) : convPartAt q d i k = convPartAt r d i k := by
  unfold convPartAt
  congr 1
  apply List.map_congr_left
  intro t ht
  unfold convTerm
  rw [h t (List.mem_range.mp ht)]

theorem gfmul_zero_left (b : Nat) : gfmul 0 b = 0 := by simp [gfmul]

theorem gfmul_zero_right (a : Nat) : gfmul a 0 = 0 := by simp [gfmul]

theorem convPartAt_head (q d : List Nat) (i : Nat) (hi : 1 ≤ i) :
    convPartAt q d i 0 = gfmul (q.getD 0 0) (d.getD 0 0) := by
  induction i with
  | zero => omega
  | succ n ih =>
    rw [convPartAt_succ]
    rcases Nat.eq_or_lt_of_le hi with h | h
    · have : n = 0 := by omega
      subst this
      rw [convPartAt_zero, Nat.zero_xor]
      unfold convTerm
      simp
    · rw [ih (by omega)]
      unfold convTerm
      rw [if_neg (by omega), Nat.xor_zero]

/-! ## Theorems: the division loop invariant -/

theorem mulFast_one (r : Nat) (hr : r < 256) (hrnz : r ≠ 0) : mulFast r 1 = r := by
  obtain ⟨hre, hrl⟩ := expLog r hr hrnz
  rw [mulFast_pos r 1 hrnz (by omega), logLkOne, Nat.add_zero, Nat.mod_eq_of_lt (by omega)]
  exact hre

theorem gf_qc_spec (r dlc : Nat) (hr : r < 256) (hd : dlc < 256) (hrnz : r ≠ 0)
    (hdnz : dlc ≠ 0) :
    (if dlc ≠ 1 then gfmul r (inverseV dlc) else r) ≠ 0 ∧
    (if dlc ≠ 1 then gfmul r (inverseV dlc) else r) < 256 ∧
    gfmul (if dlc ≠ 1 then gfmul r (inverseV dlc) else r) dlc = r := by
  by_cases h1 : dlc = 1
  · subst h1
    rw [if_neg (by tauto)]
    refine ⟨hrnz, hr, ?_⟩
    rw [gfmul_eq_mulFast r 1 hr (by omega)]
    exact mulFast_one r hr hrnz
  · rw [if_pos h1]
    rw [inverseV_eq dlc hd hdnz, gfmul_eq_mulFast r _ hr (invFast_lt _)]
    obtain ⟨h2, h3, h4⟩ := mulFast_by_inv r dlc hr hd hrnz hdnz
    refine ⟨h2, h4, ?_⟩
    rw [gfmul_eq_mulFast _ dlc h4 hd]
    exact h3

theorem innerSubGF_spec (qc : Nat) : ∀ (ds : List Nat) (j i : Nat) (rem : List Nat),
    i + j + ds.length ≤ rem.length →
    (innerSubGF qc ds j i rem).length = rem.length ∧
    (∀ k, (innerSubGF qc ds j i rem).getD k 0 =
      if i + j ≤ k ∧ k < i + j + ds.length
      then rem.getD k 0 ^^^ gfmul qc (ds.getD (k - (i + j)) 0) else rem.getD k 0) := by
  intro ds
  induction ds with
  | nil =>
    intro j i rem h
    refine ⟨rfl, fun k => ?_⟩
    rw [if_neg (by simp only [List.length_nil]; omega)]
    rfl
  | cons dj rest ih =>
    intro j i rem h
    simp only [List.length_cons] at h
    have hpos : i + j < rem.length := by omega
    simp only [innerSubGF]
    set rem2 := (if i + j < rem.length then
      (if gfmul qc dj ≠ 0 then rem.set (i + j) (rem.getD (i + j) 0 ^^^ gfmul qc dj) else rem)
      else rem) with hrem2
    have hr2len : rem2.length = rem.length := by
      rw [hrem2]
      split_ifs <;> simp
    have hr2get : ∀ k, rem2.getD k 0 =
        if k = i + j then rem.getD k 0 ^^^ gfmul qc dj else rem.getD k 0 := by
      intro k
      rw [hrem2, if_pos hpos]
      by_cases hf : gfmul qc dj ≠ 0
      · rw [if_pos hf, getD_set]
        by_cases hk : k = i + j
        · subst hk
          rw [if_pos ⟨rfl, hpos⟩, if_pos rfl]
        · rw [if_neg (by tauto), if_neg hk]
      · push_neg at hf
        rw [if_neg (by simp [hf]), hf, Nat.xor_zero, ite_self]
    obtain ⟨ihlen, ihget⟩ := ih (j + 1) i rem2 (by rw [hr2len]; omega)
    refine ⟨ihlen.trans hr2len, fun k => ?_⟩
    rw [ihget k, hr2get k]
    simp only [List.length_cons]
    by_cases hk : k = i + j
    · subst hk
      rw [if_neg (by omega), if_pos rfl, if_pos (by omega), Nat.sub_self]
      simp [List.getD_cons_zero]
    · by_cases hin : i + (j + 1) ≤ k ∧ k < i + (j + 1) + rest.length
      · rw [if_pos hin, if_neg hk, if_pos (by omega),
          show k - (i + j) = (k - (i + (j + 1))) + 1 from by omega, List.getD_cons_succ]
      · rw [if_neg hin, if_neg hk, if_neg (by omega)]

theorem divLoopGF_inv (p d : List Nat) (hd0 : d.getD 0 0 ≠ 0) (hd0b : d.getD 0 0 < 256)
    (hdb : ∀ k, k < d.length → d.getD k 0 < 256)
    (hm : 1 ≤ d.length) (hmn : d.length ≤ p.length) :
    ∀ (fuel i : Nat) (q rem : List Nat), i + fuel = p.length - d.length + 1 →
      DivInv p d q rem i →
      DivInv p d (divLoopGF (d.getD 0 0) (d.drop 1) fuel i q rem).1
        (divLoopGF (d.getD 0 0) (d.drop 1) fuel i q rem).2 (p.length - d.length + 1) := by
  intro fuel
  induction fuel with
  | zero =>
    intro i q rem hsum hinv
    simp only [divLoopGF]
    have hiL : i = p.length - d.length + 1 := by omega
    rw [← hiL]
    exact hinv
  | succ fuel ih =>
    intro i q rem hsum hinv
    obtain ⟨hqlen, hrlen, hqb, hrb, hqz, he1, he2⟩ := hinv
    have hiL : i < p.length - d.length + 1 := by omega
    have hiN : i < p.length := by omega
    simp only [divLoopGF]
    by_cases hri : rem.getD i 0 ≠ 0
    · rw [if_pos hri]
      set qc := (if d.getD 0 0 ≠ 1 then gfmul (rem.getD i 0) (inverseV (d.getD 0 0))
        else rem.getD i 0) with hqc
      obtain ⟨hqcnz, hqcb, hqcd⟩ :=
        gf_qc_spec (rem.getD i 0) (d.getD 0 0) (hrb i (by omega)) hd0b hri hd0
      rw [if_neg hqcnz]
      apply ih (i + 1) (q.set i qc) (innerSubGF qc (d.drop 1) 1 i rem) (by omega)
      have hqi : i < q.length := by omega
      obtain ⟨hR2len, hR2get⟩ := innerSubGF_spec qc (d.drop 1) 1 i rem
        (by simp only [List.length_drop]; omega)
      have hR2get2 : ∀ k, (innerSubGF qc (d.drop 1) 1 i rem).getD k 0 =
          if i + 1 ≤ k ∧ k < i + d.length
          then rem.getD k 0 ^^^ gfmul qc (d.getD (k - i) 0) else rem.getD k 0 := by
        intro k
        rw [hR2get k]
        simp only [List.length_drop]
        by_cases hc : i + 1 ≤ k ∧ k < i + d.length
        · rw [if_pos (by omega), if_pos hc, getD_drop,
            show 1 + (k - (i + 1)) = k - i from by omega]
        · rw [if_neg (by omega), if_neg hc]
      have hsetcongr : ∀ k, convPartAt (q.set i qc) d i k = convPartAt q d i k := by
        intro k
        apply convPartAt_congr
        intro t ht
        rw [getD_set, if_neg (by omega)]
      have hterm : ∀ k, i ≤ k → convTerm (q.set i qc) d k i = gfmul qc (d.getD (k - i) 0) := by
        intro k hk
        unfold convTerm
        rw [if_pos hk, getD_set, if_pos ⟨rfl, hqi⟩]
      refine ⟨by simp [hqlen], hR2len.trans hrlen, ?_, ?_, ?_, ?_, ?_⟩
      · intro t ht
        rw [getD_set]
        split_ifs
        · exact hqcb
        · exact hqb t (by simpa using ht)
      · intro k hk
        rw [hR2get2 k]
        rw [hR2len] at hk
        split_ifs with hc
        · have h256 : (256 : Nat) = 2 ^ 8 := rfl
          rw [h256]
          exact Nat.xor_lt_two_pow (h256 ▸ hrb k hk)
            (h256 ▸ gfmul_lt qc _ hqcb (hdb (k - i) (by omega)))
        · exact hrb k hk
      · intro t ht
        rw [getD_set, if_neg (by omega)]
        exact hqz t (by omega)
      · intro k hk hkn
        rcases Nat.lt_or_ge k i with h | h
        · rw [convPartAt_succ, hsetcongr k,
            show convTerm (q.set i qc) d k i = 0 from by
              unfold convTerm; rw [if_neg (by omega)],
            Nat.xor_zero]
          exact he1 k h hkn
        · have hk_eq : k = i := by omega
          subst hk_eq
          rw [convPartAt_succ, hsetcongr k, hterm k (le_refl k), Nat.sub_self,
            getD_zero_headD]
          rw [← getD_zero_headD, hqcd]
          exact he2 k (le_refl k) hkn
      · intro k hk hkn
        rw [convPartAt_succ, hsetcongr k, hterm k (by omega), hR2get2 k]
        by_cases hc : i + 1 ≤ k ∧ k < i + d.length
        · rw [if_pos hc, xor_cancel_mid]
          exact he2 k (by omega) hkn
        · rw [if_neg hc, getD_eq_default d (k - i) 0 (by omega), gfmul_zero_right,
            Nat.xor_zero]
          exact he2 k (by omega) hkn
    · rw [if_neg hri]
      push_neg at hri
      apply ih (i + 1) q rem (by omega)
      refine ⟨hqlen, hrlen, hqb, hrb, fun t ht => hqz t (by omega), ?_, ?_⟩
      · intro k hk hkn
        rcases Nat.lt_or_ge k i with h | h
        · rw [convPartAt_succ,
            show convTerm q d k i = 0 from by unfold convTerm; rw [if_neg (by omega)],
            Nat.xor_zero]
          exact he1 k h hkn
        · have hk_eq : k = i := by omega
          subst hk_eq
          rw [convPartAt_succ,
            show convTerm q d k k = 0 from by
              unfold convTerm
              rw [hqz k (le_refl k), gfmul_zero_left, ite_self],
            Nat.xor_zero]
          have := he2 k (le_refl k) hkn
          rwa [hri, Nat.xor_zero] at this
      · intro k hk hkn
        rw [convPartAt_succ,
          show convTerm q d k i = 0 from by
            unfold convTerm
            rw [hqz i (le_refl i), gfmul_zero_left, ite_self],
          Nat.xor_zero]
        exact he2 k (by omega) hkn

/-! ## Theorems: characterizing the product scratch array -/

theorem gfmul_ne_zero (a b : Nat) (ha : a < 256) (hb : b < 256) (hna : a ≠ 0) (hnb : b ≠ 0) :
    gfmul a b ≠ 0 := by
  rw [gfmul_eq_mulFast a b ha hb, mulFast_pos a b hna hnb]
  exact (logExp _ (Nat.mod_lt _ (by omega))).2

theorem mulAcc_spec (c1 i1 : Nat) : ∀ (bs : List Nat) (i2 : Nat) (terms : List Nat),
    i1 + i2 + bs.length ≤ terms.length →
    (mulAcc gfAdd gfmul 0 c1 i1 bs i2 terms).length = terms.length ∧
    (∀ s, (mulAcc gfAdd gfmul 0 c1 i1 bs i2 terms).getD s 0 =
      if i1 + i2 ≤ s ∧ s < i1 + i2 + bs.length
      then terms.getD s 0 ^^^ gfmul c1 (bs.getD (s - (i1 + i2)) 0) else terms.getD s 0) := by
  intro bs
  induction bs with
  | nil =>
    intro i2 terms h
    refine ⟨rfl, fun s => ?_⟩
    rw [if_neg (by simp only [List.length_nil]; omega)]
    rfl
  | cons c2 rest ih =>
    intro i2 terms h
    simp only [List.length_cons] at h
    have hpos : i1 + i2 < terms.length := by omega
    simp only [mulAcc]
    set terms2 := terms.set (i1 + i2) (gfAdd (terms.getD (i1 + i2) 0) (gfmul c1 c2)) with ht2
    have ht2len : terms2.length = terms.length := by simp [ht2]
    have ht2get : ∀ s, terms2.getD s 0 =
        if s = i1 + i2 then terms.getD s 0 ^^^ gfmul c1 c2 else terms.getD s 0 := by
      intro s
      rw [ht2, getD_set]
      by_cases hs : s = i1 + i2
      · subst hs
        rw [if_pos ⟨rfl, hpos⟩, if_pos rfl]
        rfl
      · rw [if_neg (by tauto), if_neg hs]
    obtain ⟨ihlen, ihget⟩ := ih (i2 + 1) terms2 (by rw [ht2len]; omega)
    refine ⟨ihlen.trans ht2len, fun s => ?_⟩
    rw [ihget s, ht2get s]
    simp only [List.length_cons]
    by_cases hs : s = i1 + i2
    · subst hs
      rw [if_neg (by omega), if_pos rfl, if_pos (by omega), Nat.sub_self]
      simp [List.getD_cons_zero]
    · by_cases hin : i1 + (i2 + 1) ≤ s ∧ s < i1 + (i2 + 1) + rest.length
      · rw [if_pos hin, if_neg hs, if_pos (by omega),
          show s - (i1 + i2) = (s - (i1 + (i2 + 1))) + 1 from by omega, List.getD_cons_succ]
      · rw [if_neg hin, if_neg hs, if_neg (by omega)]

theorem rowSum_cons (c1 : Nat) (rest brev : List Nat) (i1 s : Nat) :
    rowSum (c1 :: rest) brev i1 s =
      (if i1 ≤ s ∧ s < i1 + brev.length then gfmul c1 (brev.getD (s - i1) 0) else 0) ^^^
        rowSum rest brev (i1 + 1) s := by
  unfold rowSum
  rw [List.length_cons, List.range_succ_eq_map, List.map_cons, xorSum_cons, List.map_map]
  congr 1
  congr 1
  apply List.map_congr_left
  intro t _
  simp only [Function.comp_apply]
  rw [show i1 + (t + 1) = i1 + 1 + t from by omega, List.getD_cons_succ]

theorem mulOut_spec (brev : List Nat) : ∀ (arev : List Nat) (i1 : Nat) (terms : List Nat),
    i1 + arev.length + brev.length ≤ terms.length + 1 →
    (mulOut gfAdd gfmul 0 brev arev i1 terms).length = terms.length ∧
    (∀ s, (mulOut gfAdd gfmul 0 brev arev i1 terms).getD s 0 =
      terms.getD s 0 ^^^ rowSum arev brev i1 s) := by
  intro arev
  induction arev with
  | nil =>
    intro i1 terms h
    refine ⟨rfl, fun s => ?_⟩
    show terms.getD s 0 = terms.getD s 0 ^^^ rowSum [] brev i1 s
    rw [show rowSum [] brev i1 s = 0 from rfl, Nat.xor_zero]
  | cons c1 rest ih =>
    intro i1 terms h
    simp only [List.length_cons] at h
    simp only [mulOut]
    have hb : i1 + 0 + brev.length ≤ terms.length := by omega
    set terms2 := (if (c1 == 0) = true then terms
      else mulAcc gfAdd gfmul 0 c1 i1 brev 0 terms) with ht2
    have ht2len : terms2.length = terms.length := by
      rw [ht2]
      split
      · rfl
      · exact (mulAcc_spec c1 i1 brev 0 terms hb).1
    have ht2get : ∀ s, terms2.getD s 0 = terms.getD s 0 ^^^
        (if i1 ≤ s ∧ s < i1 + brev.length then gfmul c1 (brev.getD (s - i1) 0) else 0) := by
      intro s
      rw [ht2]
      by_cases hc1 : c1 = 0
      · rw [if_pos (by simp [hc1]), hc1, gfmul_zero_left, ite_self, Nat.xor_zero]
      · rw [if_neg (by simp [hc1]), (mulAcc_spec c1 i1 brev 0 terms hb).2 s, xor_if_push]
        simp only [Nat.add_zero]
    obtain ⟨ihlen, ihget⟩ := ih (i1 + 1) terms2 (by rw [ht2len]; omega)
    refine ⟨ihlen.trans ht2len, fun s => ?_⟩
    rw [ihget s, ht2get s, Nat.xor_assoc, rowSum_cons]

theorem rowSum_zero_of_ge (arev brev : List Nat) (s : Nat)
    (h : arev.length + brev.length ≤ s + 1) : rowSum arev brev 0 s = 0 := by
  unfold rowSum
  apply xorSum_zero_of
  intro x hx
  obtain ⟨t, ht, rfl⟩ := List.mem_map.mp hx
  have := List.mem_range.mp ht
  rw [if_neg (by omega)]

theorem rowSum_rev_conv (q d : List Nat) (hq : q ≠ []) (hd : d ≠ []) (k : Nat)
    (hk : k < q.length + d.length - 1) :
    rowSum q.reverse d.reverse 0 (q.length + d.length - 2 - k) =
      convPartAt q d q.length k := by
  have hLq : 1 ≤ q.length := List.length_pos.mpr hq
  have hLd : 1 ≤ d.length := List.length_pos.mpr hd
  unfold rowSum convPartAt
  simp only [List.length_reverse, Nat.zero_add]
  rw [← xorSum_reverse, map_range_reverse]
  congr 1
  apply List.map_congr_left
  intro t ht
  have htq := List.mem_range.mp ht
  unfold convTerm
  by_cases hc1 : t ≤ k
  · by_cases hc2 : k - t < d.length
    · rw [if_pos (by omega), if_pos hc1,
        getD_reverse q _ 0 (by omega), getD_reverse d _ 0 (by omega),
        show q.length - 1 - (q.length - 1 - t) = t from by omega,
        show d.length - 1 - (q.length + d.length - 2 - k - (q.length - 1 - t)) = k - t from by
          omega]
    · rw [if_neg (by omega), if_pos hc1,
        getD_eq_default d (k - t) 0 (by omega), gfmul_zero_right]
  · rw [if_neg (by omega), if_neg hc1]

/-! ## Theorems: normalization and stripping -/

theorem mkPoly_eq {α : Type} [DecidableEq α] (z : α) (c : List α) :
    mkPoly z c = if c.dropWhile (fun x => x == z) = [] then [z]
      else c.dropWhile (fun x => x == z) := rfl

theorem mkPoly_of_headD_ne {α : Type} [DecidableEq α] (z : α) (l : List α)
    (h : l.headD z ≠ z) : mkPoly z l = l := by
  cases l with
  | nil => simp at h
  | cons a t =>
    have ha : a ≠ z := by simpa using h
    rw [mkPoly_eq, List.dropWhile_cons_of_neg (by simpa using ha), if_neg (by simp)]

theorem mkPoly_single_zero {α : Type} [DecidableEq α] (z : α) : mkPoly z [z] = [z] := by
  rw [mkPoly_eq, List.dropWhile_cons_of_pos (by simp)]
  simp

theorem mkPoly_of_norm {α : Type} [DecidableEq α] (z : α) (l : List α)
    (h : l.headD z ≠ z ∨ l = [z]) : mkPoly z l = l := by
  rcases h with h | h
  · exact mkPoly_of_headD_ne z l h
  · rw [h]
    exact mkPoly_single_zero z

theorem mkPoly_all_zero {α : Type} [DecidableEq α] (z : α) (c : List α)
    (h : ∀ x ∈ c, x = z) : mkPoly z c = [z] := by
  rw [mkPoly_eq, if_pos (List.dropWhile_eq_nil_iff.mpr (fun x hx => by simp [h x hx]))]

theorem mkPoly_head_or {α : Type} [DecidableEq α] (z : α) (c : List α) :
    mkPoly z c = [z] ∨ (mkPoly z c).headD z ≠ z := by
  induction c with
  | nil => left; rfl
  | cons a t ih =>
    by_cases ha : a = z
    · have hstep : mkPoly z (a :: t) = mkPoly z t := by
        rw [mkPoly_eq, mkPoly_eq, List.dropWhile_cons_of_pos (by simp [ha])]
      rw [hstep]
      exact ih
    · right
      rw [mkPoly_of_headD_ne z (a :: t) (by simpa using ha)]
      simpa using ha

theorem stripLead1_spec {α : Type} [DecidableEq α] (z : α) : ∀ l : List α, ∃ s,
    stripLead1 z l = l.drop s ∧ (∀ t, t < s → l.getD t z = z) ∧ (l ≠ [] → s < l.length) := by
  intro l
  induction l with
  | nil => exact ⟨0, rfl, fun t ht => absurd ht (by omega), fun h => absurd rfl h⟩
  | cons a t ih =>
    cases t with
    | nil => exact ⟨0, rfl, fun t ht => absurd ht (by omega), fun _ => by simp⟩
    | cons b r =>
      by_cases ha : a = z
      · obtain ⟨s, hs1, hs2, hs3⟩ := ih
        refine ⟨s + 1, ?_, ?_, ?_⟩
        · show stripLead1 z (a :: b :: r) = _
          simp only [stripLead1]
          rw [if_pos (by simp [ha]), hs1]
          rfl
        · intro u hu
          cases u with
          | zero => simpa using ha
          | succ u =>
            rw [List.getD_cons_succ]
            exact hs2 u (by omega)
        · intro _
          have := hs3 (by simp)
          simp only [List.length_cons] at this ⊢
          omega
      · refine ⟨0, ?_, fun t ht => absurd ht (by omega), fun _ => by simp⟩
        simp only [stripLead1]
        rw [if_neg (by simp [ha])]
        rfl

theorem stripLead1_of_headD_ne {α : Type} [DecidableEq α] (z : α) (l : List α)
    (h : l.headD z ≠ z) : stripLead1 z l = l := by
  cases l with
  | nil => rfl
  | cons a t =>
    cases t with
    | nil => rfl
    | cons b r =>
      simp only [stripLead1]
      rw [if_neg (by simpa using h)]

theorem stripLead1_ne_nil {α : Type} [DecidableEq α] (z : α) (l : List α) (h : l ≠ []) :
    stripLead1 z l ≠ [] := by
  obtain ⟨s, hs1, _, hs3⟩ := stripLead1_spec z l
  rw [hs1]
  have := hs3 h
  intro hcon
  rw [List.drop_eq_nil_iff] at hcon
  omega

theorem stripLead1_norm {α : Type} [DecidableEq α] (z : α) : ∀ l : List α,
    (stripLead1 z l).length ≤ 1 ∨ (stripLead1 z l).headD z ≠ z := by
  intro l
  induction l with
  | nil => left; simp [stripLead1]
  | cons a t ih =>
    cases t with
    | nil => left; simp [stripLead1]
    | cons b r =>
      by_cases ha : a = z
      · have hstep : stripLead1 z (a :: b :: r) = stripLead1 z (b :: r) := by
          simp only [stripLead1]
          rw [if_pos (by simp [ha])]
        rw [hstep]
        exact ih
      · right
        have hstep : stripLead1 z (a :: b :: r) = a :: b :: r := by
          simp only [stripLead1]
          rw [if_neg (by simp [ha])]
        rw [hstep]
        simpa using ha

theorem mkPoly_stripLead1 {α : Type} [DecidableEq α] (z : α) (l : List α) (h : l ≠ []) :
    mkPoly z (stripLead1 z l) = stripLead1 z l := by
  rcases stripLead1_norm z l with h1 | h1
  · have hne := stripLead1_ne_nil z l h
    have hlen : (stripLead1 z l).length = 1 := by
      have := List.length_pos.mpr hne
      omega
    obtain ⟨x, hx⟩ := List.length_eq_one.mp hlen
    rw [hx]
    by_cases hxz : x = z
    · rw [hxz]
      exact mkPoly_single_zero z
    · exact mkPoly_of_headD_ne z [x] (by simpa using hxz)
  · exact mkPoly_of_headD_ne z _ h1

theorem zipWith_gfAdd_zero (p : List Nat) :
    List.zipWith gfAdd (List.replicate p.length 0) p = p := by
  induction p with
  | nil => rfl
  | cons a t ih =>
    rw [List.length_cons, List.replicate_succ, List.zipWith_cons_cons, ih]
    rw [show gfAdd 0 a = a from Nat.zero_xor a]

theorem gpMul_zero_left (d : List Nat) : gpMul [0] d = [0] := by
  unfold gpMul polyMul
  rw [show ([0] : List Nat).reverse = [0] from rfl]
  simp only [mulOut, mulAcc, beq_self_eq_true, if_true]
  rw [List.reverse_replicate]
  exact mkPoly_all_zero 0 _ (fun x hx => List.eq_of_mem_replicate hx)

theorem gpMul_spec (q d : List Nat) (hq : q ≠ []) (hd : d ≠ [])
    (hq0 : q.getD 0 0 ≠ 0) (hd0 : d.getD 0 0 ≠ 0)
    (hqb : ∀ t, t < q.length → q.getD t 0 < 256)
    (hdb : ∀ t, t < d.length → d.getD t 0 < 256) :
    (gpMul q d).length = q.length + d.length - 1 ∧
    (∀ k, k < q.length + d.length - 1 → (gpMul q d).getD k 0 = convPartAt q d q.length k) := by
  have hLq : 1 ≤ q.length := List.length_pos.mpr hq
  have hLd : 1 ≤ d.length := List.length_pos.mpr hd
  obtain ⟨hUlen, hUget⟩ := mulOut_spec d.reverse q.reverse 0
    (List.replicate (q.length + d.length) 0)
    (by simp only [List.length_reverse, List.length_replicate]; omega)
  set U := mulOut gfAdd gfmul 0 d.reverse q.reverse 0
    (List.replicate (q.length + d.length) 0) with hU
  have hUlen2 : U.length = q.length + d.length := by
    rw [hUlen]
    simp
  have hUget2 : ∀ s, U.getD s 0 = rowSum q.reverse d.reverse 0 s := by
    intro s
    rw [hUget s, getD_replicate, Nat.zero_xor]
  have hWlen : U.reverse.length = q.length + d.length := by simp [hUlen2]
  have hW0 : U.reverse.getD 0 0 = 0 := by
    rw [getD_reverse U 0 0 (by omega), hUget2, Nat.sub_zero]
    exact rowSum_zero_of_ge _ _ _ (by simp only [List.length_reverse]; omega)
  have hWk : ∀ k, k < q.length + d.length - 1 →
      U.reverse.getD (k + 1) 0 = convPartAt q d q.length k := by
    intro k hk
    rw [getD_reverse U (k + 1) 0 (by omega), hUget2,
      show U.length - 1 - (k + 1) = q.length + d.length - 2 - k from by omega]
    exact rowSum_rev_conv q d hq hd k hk
  obtain ⟨w0, wt, hW⟩ : ∃ w0 wt, U.reverse = w0 :: wt := by
    cases hUr : U.reverse with
    | nil =>
      rw [hUr] at hWlen
      simp at hWlen
      omega
    | cons x xs => exact ⟨x, xs, rfl⟩
  have hw0 : w0 = 0 := by
    have := hW0
    rw [hW] at this
    simpa using this
  have hwtlen : wt.length = q.length + d.length - 1 := by
    have := hWlen
    rw [hW] at this
    simp only [List.length_cons] at this
    omega
  have hwtget : ∀ k, k < q.length + d.length - 1 →
      wt.getD k 0 = convPartAt q d q.length k := by
    intro k hk
    have := hWk k hk
    rwa [hW, List.getD_cons_succ] at this
  have hwt0 : wt.getD 0 0 ≠ 0 := by
    rw [hwtget 0 (by omega), convPartAt_head q d q.length hLq]
    exact gfmul_ne_zero _ _ (hqb 0 (by omega)) (hdb 0 (by omega)) hq0 hd0
  have hres : gpMul q d = wt := by
    show mkPoly 0 U.reverse = wt
    rw [hW, hw0]
    obtain ⟨x, xs, hxs⟩ : ∃ x xs, wt = x :: xs := by
      cases hwt : wt with
      | nil =>
        rw [hwt] at hwtlen
        simp at hwtlen
        omega
      | cons x xs => exact ⟨x, xs, rfl⟩
    have hxne : x ≠ 0 := by
      have := hwt0
      rw [hxs] at this
      simpa using this
    rw [mkPoly_eq, List.dropWhile_cons_of_pos (by simp), hxs,
      List.dropWhile_cons_of_neg (by simpa using hxne), if_neg (by simp)]
  rw [hres]
  exact ⟨hwtlen, hwtget⟩

theorem gpAdd_zero_left (p : List Nat) (hp : p ≠ []) (hnorm : p.headD 0 ≠ 0 ∨ p = [0]) :
    gpAdd [0] p = p := by
  have hl : 1 ≤ p.length := List.length_pos.mpr hp
  unfold gpAdd polyAdd
  rw [if_neg (by simp only [List.length_singleton]; omega)]
  simp only [List.length_singleton]
  rw [show List.replicate (p.length - 1) (0 : Nat) ++ [0] = List.replicate p.length 0 by
    rw [← List.replicate_succ']
    congr 1
    omega]
  rw [zipWith_gfAdd_zero]
  exact mkPoly_of_norm 0 p hnorm

/-! ## Theorems: the division identity over GF(256) -/

theorem divmodGF_spec (p d : List Nat) (hp : IsGFPoly p) (hd : IsGFPoly d) (hdz : d ≠ [0]) :
    ∃ q r, polyDivmodGF p d = some (q, r) ∧ gpAdd (gpMul q d) r = p ∧
      (1 ≤ degreeI d → degreeI r < degreeI d) := by
  obtain ⟨hpn, hpb⟩ := hp
  obtain ⟨hdn, hdb⟩ := hd
  have hdhead : d.headD 0 ≠ 0 := hdn.resolve_right hdz
  have hdne : d ≠ [] := by
    intro h
    rw [h] at hdhead
    exact hdhead rfl
  have hLd : 1 ≤ d.length := List.length_pos.mpr hdne
  have hpne : p ≠ [] := by
    rcases hpn with h | h
    · intro hc
      rw [hc] at h
      exact h rfl
    · rw [h]
      simp
  have hLp : 1 ≤ p.length := List.length_pos.mpr hpne
  have hd0 : d.getD 0 0 ≠ 0 := by
    rw [getD_zero_headD]
    exact hdhead
  have hd0b : d.getD 0 0 < 256 := hdb 0 (by omega)
  by_cases hdeg : degreeI p < degreeI d
  · refine ⟨mkPoly 0 [0], p, ?_, ?_, fun _ => hdeg⟩
    · unfold polyDivmodGF
      rw [if_neg hdz, if_pos hdeg]
    · rw [show mkPoly (0 : Nat) [0] = [0] from mkPoly_single_zero 0, gpMul_zero_left d]
      exact gpAdd_zero_left p hpne hpn
  · have hmn : d.length ≤ p.length := by
      unfold degreeI at hdeg
      omega
    by_cases hp0 : p = [0]
    · have hm1 : d.length = 1 := by
        unfold degreeI at hdeg
        rw [hp0] at hdeg
        simp only [List.length_singleton] at hdeg
        omega
      obtain ⟨x, hx⟩ := List.length_eq_one.mp hm1
      subst hp0
      subst hx
      refine ⟨[0], [0], ?_, ?_, ?_⟩
      · unfold polyDivmodGF
        rw [if_neg hdz, if_neg hdeg]
        rfl
      · rw [gpMul_zero_left [x]]
        exact gpAdd_zero_left [0] (by simp) (Or.inr rfl)
      · intro h
        unfold degreeI at h ⊢
        simp only [List.length_singleton] at h
        omega
    · have hphead : p.headD 0 ≠ 0 := hpn.resolve_right hp0
      have hp00 : p.getD 0 0 ≠ 0 := by
        rw [getD_zero_headD]
        exact hphead
      have hinv0 : DivInv p d (List.replicate (p.length - d.length + 1) 0) p 0 := by
        refine ⟨by simp, rfl, ?_, ?_, ?_, ?_, ?_⟩
        · intro t _
          rw [getD_replicate]
          omega
        · exact hpb
        · intro t _
          exact getD_replicate _ _ _
        · intro k hk _
          omega
        · intro k _ _
          rw [convPartAt_zero, Nat.zero_xor]
      have hloop := divLoopGF_inv p d hd0 hd0b hdb hLd hmn
        (p.length - d.length + 1) 0 (List.replicate (p.length - d.length + 1) 0) p
        (by omega) hinv0
      set q := (divLoopGF (d.getD 0 0) (d.drop 1) (p.length - d.length + 1) 0
        (List.replicate (p.length - d.length + 1) 0) p).1 with hqdef
      set rem := (divLoopGF (d.getD 0 0) (d.drop 1) (p.length - d.length + 1) 0
        (List.replicate (p.length - d.length + 1) 0) p).2 with hremdef
      obtain ⟨hqlen, hrlen, hqb, hrb, _, he1, he2⟩ := hloop
      have hq0 : q.getD 0 0 ≠ 0 := by
        have h1 := he1 0 (by omega) (by omega)
        rw [convPartAt_head q d _ (by omega)] at h1
        intro hq0eq
        rw [hq0eq, gfmul_zero_left] at h1
        exact hp00 h1
      have hqne : q ≠ [] := by
        intro hc
        rw [hc] at hqlen
        simp at hqlen
      have hqhd : q.headD 0 ≠ 0 := by
        rw [← getD_zero_headD]
        exact hq0
      have hstrip : stripLead1 0 q = q := stripLead1_of_headD_ne 0 q hqhd
      have hmkq : mkPoly 0 q = q := mkPoly_of_headD_ne 0 q hqhd
      have hdm : polyDivmodGF p d = some (q,
          mkPoly 0 (if stripLead1 0 (rem.drop q.length) = [] then [0]
            else stripLead1 0 (rem.drop q.length))) := by
        unfold polyDivmodGF
        rw [if_neg hdz, if_neg hdeg]
        show some (mkPoly 0 (stripLead1 0 q),
          mkPoly 0 (if stripLead1 0 (rem.drop (stripLead1 0 q).length) = [] then [0]
            else stripLead1 0 (rem.drop (stripLead1 0 q).length))) = _
        rw [hstrip, hmkq]
      have hDlen : (rem.drop q.length).length = d.length - 1 := by
        rw [List.length_drop, hrlen, hqlen]
        omega
      -- characterize the returned remainder and its left padding
      have hr_char : ∃ r, mkPoly 0 (if stripLead1 0 (rem.drop q.length) = [] then [0]
            else stripLead1 0 (rem.drop q.length)) = r ∧
          1 ≤ r.length ∧ r.length ≤ p.length ∧
          (2 ≤ d.length → r.length ≤ d.length - 1) ∧
          (∀ k, k < p.length → (List.replicate (p.length - r.length) 0 ++ r).getD k 0 =
            if k < p.length - d.length + 1 then 0 else rem.getD k 0) := by
        by_cases hm1 : d.length = 1
        · have hDnil : rem.drop q.length = [] :=
            List.length_eq_zero.mp (by rw [hDlen]; omega)
          refine ⟨[0], ?_, by simp, by simp; omega, by intro h; omega, ?_⟩
          · rw [hDnil, show stripLead1 (0 : Nat) ([] : List Nat) = [] from rfl, if_pos rfl]
            exact mkPoly_single_zero 0
          · intro k hk
            rw [show List.replicate (p.length - ([0] : List Nat).length) (0 : Nat) ++ [0] =
                List.replicate p.length 0 from by
              simp only [List.length_singleton]
              rw [← List.replicate_succ']
              congr 1
              omega]
            rw [getD_replicate, if_pos (by omega)]
        · have hm2 : 2 ≤ d.length := by omega
          have hDne : rem.drop q.length ≠ [] := by
            intro hc
            rw [hc] at hDlen
            simp at hDlen
            omega
          obtain ⟨s, hs1, hs2, hs3⟩ := stripLead1_spec 0 (rem.drop q.length)
          have hsD : s < d.length - 1 := by
            have := hs3 hDne
            omega
          have hrem2ne : stripLead1 0 (rem.drop q.length) ≠ [] :=
            stripLead1_ne_nil 0 _ hDne
          rw [if_neg hrem2ne, mkPoly_stripLead1 0 _ hDne]
          have hrlen2 : (stripLead1 0 (rem.drop q.length)).length = d.length - 1 - s := by
            rw [hs1, List.length_drop, hDlen]
          refine ⟨stripLead1 0 (rem.drop q.length), rfl, by omega, by omega, by omega, ?_⟩
          intro k hk
          rw [hrlen2, getD_append]
          simp only [List.length_replicate]
          by_cases hk1 : k < p.length - (d.length - 1 - s)
          · rw [if_pos hk1, getD_replicate]
            by_cases hk2 : k < p.length - d.length + 1
            · rw [if_pos hk2]
            · rw [if_neg hk2]
              have hks : k - (p.length - d.length + 1) < s := by omega
              have hz := hs2 (k - (p.length - d.length + 1)) hks
              rw [getD_drop, hqlen,
                show p.length - d.length + 1 + (k - (p.length - d.length + 1)) = k from by
                  omega] at hz
              exact hz.symm
          · rw [if_neg hk1, hs1, getD_drop, getD_drop, hqlen,
              show p.length - d.length + 1 + (s + (k - (p.length - (d.length - 1 - s)))) = k
                from by omega,
              if_neg (by omega)]
      obtain ⟨r, hr_eq, hr1, hrn, hrm, hrpad⟩ := hr_char
      rw [hr_eq] at hdm
      obtain ⟨hPlen, hPget⟩ := gpMul_spec q d hqne hdne hq0 hd0 hqb hdb
      have hPlen2 : (gpMul q d).length = p.length := by
        rw [hPlen, hqlen]
        omega
      have hadd : gpAdd (gpMul q d) r = mkPoly 0 (List.zipWith gfAdd (gpMul q d)
          (List.replicate ((gpMul q d).length - r.length) 0 ++ r)) := by
        unfold gpAdd polyAdd
        by_cases hc : r.length < (gpMul q d).length
        · rw [if_pos hc]
        · rw [if_neg hc]
          have hre : r.length = (gpMul q d).length := by
            rw [hPlen2]
            omega
          simp only [hre, Nat.sub_self, List.replicate_zero, List.nil_append]
      have hZlen : (List.zipWith gfAdd (gpMul q d)
          (List.replicate ((gpMul q d).length - r.length) 0 ++ r)).length = p.length := by
        rw [List.length_zipWith]
        simp only [List.length_append, List.length_replicate, hPlen2]
        omega
      have hZ : List.zipWith gfAdd (gpMul q d)
          (List.replicate ((gpMul q d).length - r.length) 0 ++ r) = p := by
        apply list_ext_getD _ _ 0 (by rw [hZlen])
        intro k hk
        rw [hZlen] at hk
        rw [getD_zipWith gfAdd _ _ k 0 (by rw [hPlen2]; omega)
          (by simp only [List.length_append, List.length_replicate, hPlen2]; omega)]
        rw [hPget k (by omega), hqlen, hPlen2, hrpad k hk]
        show convPartAt q d (p.length - d.length + 1) k ^^^
          (if k < p.length - d.length + 1 then 0 else rem.getD k 0) = p.getD k 0
        by_cases hkL : k < p.length - d.length + 1
        · rw [if_pos hkL, Nat.xor_zero]
          exact (he1 k hkL hk).symm
        · rw [if_neg hkL]
          exact (he2 k (by omega) hk).symm
      refine ⟨q, r, hdm, ?_, ?_⟩
      · rw [hadd, hZ]
        exact mkPoly_of_norm 0 p hpn
      · intro hdd
        unfold degreeI at hdd ⊢
        have := hrm (by omega)
        omega

/-! ## Claim theorems on the polynomial layer -/

/-- C1, counterexample: over plain integers the claimed identity
`(p // d) * d + (p % d) == p` fails at dividend `x` (coefficients
`[1, 0]`) and divisor `2`: the quotient and the remainder both come out
as the zero polynomial, so the left side is `0`, not `x`. -/
theorem C1_int_counterexample :
    polyFloordivInt [1, 0] [2] = some [0] ∧ polyModInt [1, 0] [2] = some [0] ∧
      ipAdd (ipMul [0] [2]) [0] ≠ [1, 0] := by decide

/-- C1 (amended): for every well-formed dividend and nonzero divisor
with GF(256) coefficients, `(p // d) * d + (p % d) == p` — division,
multiplication and addition being the `Polynomial` operations
instantiated at the field. -/
theorem C1_gf_division_identity (p d : List Nat) (hp : IsGFPoly p) (hd : IsGFPoly d)
    (hdz : d ≠ [0]) :
    ∃ q r, polyFloordivGF p d = some q ∧ polyModGF p d = some r ∧
      gpAdd (gpMul q d) r = p := by
  obtain ⟨q, r, h1, h2, _⟩ := divmodGF_spec p d hp hd hdz
  refine ⟨q, r, ?_, ?_, h2⟩
  · unfold polyFloordivGF
    rw [h1]
    rfl
  · unfold polyModGF
    rw [h1]
    rfl

theorem C1_gf_division_identity_witness :
    IsGFPoly [7, 5, 3] ∧
    ∃ q r, polyFloordivGF [7, 5, 3] [2, 1] = some q ∧ polyModGF [7, 5, 3] [2, 1] = some r ∧
      gpAdd (gpMul q [2, 1]) r = [7, 5, 3] :=
  ⟨by decide, C1_gf_division_identity [7, 5, 3] [2, 1] (by decide) (by decide) (by decide)⟩

/-- C7, counterexample: for the degree-0 divisor `[1]` (a nonzero
normalized GF(256) polynomial), the remainder of `[1] % [1]` is the
zero polynomial `[0]`, whose `degree()` is 0, and 0 < 0 fails: the
claimed strict bound does not hold for degree-0 divisors under the
implementation's degree convention. -/
theorem C7_counterexample :
    IsGFPoly [1] ∧ ([1] : List Nat) ≠ [0] ∧ polyModGF [1] [1] = some [0] ∧
      ¬ degreeI ([0] : List Nat) < degreeI ([1] : List Nat) := by decide

/-- C7 (amended): for every well-formed dividend and nonzero divisor of
degree at least 1 over GF(256), the remainder returned by divmod has
strictly smaller degree than the divisor. -/
theorem C7_remainder_degree (p d : List Nat) (hp : IsGFPoly p) (hd : IsGFPoly d)
    (hdz : d ≠ [0]) (hdd : 1 ≤ degreeI d) :
    ∀ r, polyModGF p d = some r → degreeI r < degreeI d := by
  obtain ⟨q, r0, h1, _, h3⟩ := divmodGF_spec p d hp hd hdz
  intro r hr
  unfold polyModGF at hr
  rw [h1] at hr
  have hrr : r0 = r := by simpa using hr
  rw [← hrr]
  exact h3 hdd

theorem C7_remainder_degree_witness :
    1 ≤ degreeI ([1, 1] : List Nat) ∧
    ∀ r, polyModGF [1, 0] [1, 1] = some r → degreeI r < degreeI ([1, 1] : List Nat) :=
  ⟨by decide,
    C7_remainder_degree [1, 0] [1, 1] (by decide) (by decide) (by decide) (by decide)⟩

/-- C2, counterexample: the sparse constructor applies no
normalization, so supplying coefficient 0 at the highest power (here
`x3=0`) yields the denormalized tuple `(0, 0, 0, 0)` — a leading zero
on something other than the zero polynomial. -/
theorem C2_counterexample :
    sparseInit (0 : Int) [(3, 0)] = some [0, 0, 0, 0] ∧
      ¬ (([0, 0, 0, 0] : List Int) = [0] ∨ ([0, 0, 0, 0] : List Int).headD 0 ≠ 0) := by
  decide!

/-- C2 (amended): the dense form of the constructor always normalizes:
an all-zero (or empty) input collapses to the single coefficient 0, and
the result never has a leading zero unless it is exactly `[0]` (the
no-argument form returns `[0]` by definition).  The sparse form does
not re-normalize. -/
theorem C2_dense_normalizes {α : Type} [DecidableEq α] (z : α) (c : List α) :
    ((∀ x ∈ c, x = z) → mkPoly z c = [z]) ∧
      (mkPoly z c = [z] ∨ (mkPoly z c).headD z ≠ z) :=
  ⟨mkPoly_all_zero z c, mkPoly_head_or z c⟩

theorem C2_dense_normalizes_witness :
    mkPoly (0 : Int) [0, 0, 0] = [0] ∧
      (mkPoly (0 : Int) [0, 0, 5, 3] = [0] ∨ (mkPoly (0 : Int) [0, 0, 5, 3]).headD 0 ≠ 0) :=
  ⟨(C2_dense_normalizes 0 [0, 0, 0]).1 (by decide), (C2_dense_normalizes 0 [0, 0, 5, 3]).2⟩

/-- C3: evaluating the sparse constructor at the mapping
`{x9: 1, x10: 2}` shows the bug: the keyword strings are sorted
lexicographically, so `"x9" > "x10"` makes `highest = 9`; the dense
list is sized 10 (not 11), the `x^10` coefficient is written at Python
index `9 - 10 = -1`, i.e. wraps to the constant term.  The claim's
described behavior (dense form sized to the highest power present,
each coefficient at its power) does not hold. -/
theorem C3_sparse_highest_bug :
    sparseInit (0 : Int) [(9, 1), (10, 2)] = some [1, 0, 0, 0, 0, 0, 0, 0, 0, 2] := by
  decide!

end RS
